import Mathlib

/-!
Verification development for the ChronoGraph temporal analysis pipeline
(src-tauri/src: git_navigator.rs, analysis_cache.rs, chronograph_engine.rs).

Rust strings are modelled as lists of UTF-8 bytes (`List Nat`); a valid
UTF-8 byte is never `0xff`, which the predicate `ValidStr` records.
Machine integers are modelled as `Nat` with explicit `% 2 ^ 64` where the
source wraps; `usize` values carry a `< 2 ^ 64` side condition where it
matters.  Fallible Rust code is modelled with `Option`/`Except`; a Rust
panic (division by zero) is modelled as `none`.
-/

namespace ChronoGraph

/-- The modulus of all 64-bit arithmetic in the hasher, 2^64. -/
def M64 : Nat := 2 ^ 64

/-- A Rust `String`, seen as its UTF-8 bytes: no byte is `0xff` (255). -/
def ValidStr (s : List Nat) : Prop := ∀ b ∈ s, b < 255

/-- The `k` little-endian base-256 digits of `n` (the byte image of a
fixed-width integer write, e.g. `write_usize`). -/
def encBytes : Nat → Nat → List Nat
  | 0, _ => []
  | k + 1, n => n % 256 :: encBytes k (n / 256)

/-- The 8 little-endian bytes a 64-bit `write_usize`/`write_u64` feeds to
the hasher. -/
def encU64 (n : Nat) : List Nat := encBytes 8 n

/-- Read a little-endian byte list back as a number. -/
def leWord (bs : List Nat) : Nat := bs.foldr (fun b acc => b + 256 * acc) 0

/-- Hasher input of `str::hash`: the bytes followed by a single `0xff`
separator byte (as in Rust's `impl Hash for str`). -/
def encStr (s : List Nat) : List Nat := s ++ [255]

/-- Hasher input of `bool::hash`: one byte, `0` or `1`. -/
def encBool (b : Bool) : List Nat := [if b then 1 else 0]

/-- Hasher input of `Option<usize>::hash` (derived): the `isize`
discriminant (8 bytes) then the payload for `Some`. -/
def encOptU64 : Option Nat → List Nat
  | none => encU64 0
  | some n => encU64 1 ++ encU64 n

/-- Hasher input of `Option<String>::hash` (derived). -/
def encOptStr : Option (List Nat) → List Nat
  | none => encU64 0
  | some s => encU64 1 ++ encStr s

/-- Hasher input of `Vec<String>::hash`: `write_length_prefix(len)`
(8 bytes) then each element. -/
def encListStr (l : List (List Nat)) : List Nat :=
  encU64 l.length ++ (l.map encStr).flatten

/-- Hasher input of a `(&String, &String)` pair (fields in order). -/
def encPair (p : List Nat × List Nat) : List Nat := encStr p.1 ++ encStr p.2

/-- Hasher input of `Vec<(&String, &String)>::hash`. -/
def encListPair (l : List (List Nat × List Nat)) : List Nat :=
  encU64 l.length ++ (l.map encPair).flatten

/-! ### SipHash-1-3

`std::hash::DefaultHasher` is SipHash-1-3 with both keys zero; this is a
direct embedding of the reference algorithm over `Nat` mod `2 ^ 64`. -/

/-- Left rotation of a 64-bit word. -/
def rotl64 (x n : Nat) : Nat := ((x * 2 ^ n) % M64 + x / 2 ^ (64 - n)) % M64

/-- Wrapping 64-bit addition. -/
def add64 (a b : Nat) : Nat := (a + b) % M64

/-- The four 64-bit state words of SipHash. -/
structure SipState where
  v0 : Nat
  v1 : Nat
  v2 : Nat
  v3 : Nat

/-- One SIPROUND of the reference algorithm. -/
def sipRound (s : SipState) : SipState :=
  let v0 := add64 s.v0 s.v1
  let v1 := rotl64 s.v1 13
  let v1 := v1 ^^^ v0
  let v0 := rotl64 v0 32
  let v2 := add64 s.v2 s.v3
  let v3 := rotl64 s.v3 16
  let v3 := v3 ^^^ v2
  let v0 := add64 v0 v3
  let v3 := rotl64 v3 21
  let v3 := v3 ^^^ v0
  let v2 := add64 v2 v1
  let v1 := rotl64 v1 17
  let v1 := v1 ^^^ v2
  let v2 := rotl64 v2 32
  ⟨v0, v1, v2, v3⟩

/-- Absorb one 8-byte message word (c = 1 compression round). -/
def sipCompress (s : SipState) (m : Nat) : SipState :=
  let s1 : SipState := { s with v3 := s.v3 ^^^ m }
  let s2 := sipRound s1
  { s2 with v0 := s2.v0 ^^^ m }

/-- Split a message into 8-byte little-endian words; the final word holds
the remaining (fewer than 8) bytes plus `(len mod 256) << 56`. -/
def sipBlocks (len : Nat) : List Nat → List Nat
  | b0 :: b1 :: b2 :: b3 :: b4 :: b5 :: b6 :: b7 :: rest =>
    leWord [b0, b1, b2, b3, b4, b5, b6, b7] :: sipBlocks len rest
  | rest => [leWord rest + len % 256 * 2 ^ 56]

/-- Initial state for keys k0 = k1 = 0. -/
def sipInit : SipState :=
  ⟨0x736f6d6570736575, 0x646f72616e646f6d, 0x6c7967656e657261, 0x7465646279746573⟩

/-- Finalization: xor `0xff` into v2, three rounds, xor the state words. -/
def sipFinish (s : SipState) : Nat :=
  let s1 : SipState := { s with v2 := s.v2 ^^^ 255 }
  let s2 := sipRound (sipRound (sipRound s1))
  (s2.v0 ^^^ s2.v1 ^^^ s2.v2 ^^^ s2.v3) % M64

/-- SipHash-1-3 of a byte stream with zero keys: what
`DefaultHasher::finish` returns after the stream has been written. -/
def sip13 (msg : List Nat) : Nat :=
  sipFinish ((sipBlocks msg.length msg).foldl sipCompress sipInit)

theorem sip13_lt (msg : List Nat) : sip13 msg < M64 :=
  Nat.mod_lt _ (by decide)

/-- ASCII code of a lowercase hex digit. -/
def hexDigit (n : Nat) : Nat := if n < 10 then 48 + n else 87 + n

/-- The 16 ASCII bytes of `format!("{:016x}", h)`. -/
def hexBytes16 (h : Nat) : List Nat :=
  (List.range 16).map (fun i => hexDigit (h / 16 ^ (15 - i) % 16))

/-! ### The byte ordering of Rust `String` (`Ord`), used by `sort_by_key` -/

/-- Lexicographic `≤` on byte lists: `Ord for str` compared as bytes. -/
def bytesLe : List Nat → List Nat → Bool
  | [], _ => true
  | _ :: _, [] => false
  | a :: as, b :: bs => if a < b then true else if b < a then false else bytesLe as bs

theorem bytesLe_total : ∀ a b : List Nat, bytesLe a b = true ∨ bytesLe b a = true
  | [], _ => Or.inl rfl
  | _ :: _, [] => Or.inr rfl
  | a :: as, b :: bs => by
    simp only [bytesLe]
    rcases Nat.lt_trichotomy a b with h | h | h
    · left; simp [h]
    · subst h
      simp only [Nat.lt_irrefl, if_false]
      exact bytesLe_total as bs
    · right; simp [h]

theorem bytesLe_antisymm : ∀ a b : List Nat,
    bytesLe a b = true → bytesLe b a = true → a = b
  | [], [], _, _ => rfl
  | [], _ :: _, _, h => by simp [bytesLe] at h
  | _ :: _, [], h, _ => by simp [bytesLe] at h
  | a :: as, b :: bs, h1, h2 => by
    simp only [bytesLe] at h1 h2
    rcases Nat.lt_trichotomy a b with h | h | h
    · simp [h, Nat.lt_asymm h] at h2
    · subst h
      simp only [Nat.lt_irrefl, if_false] at h1 h2
      exact congrArg (a :: ·) (bytesLe_antisymm as bs h1 h2)
    · simp [h, Nat.lt_asymm h] at h1

theorem bytesLe_trans : ∀ a b c : List Nat,
    bytesLe a b = true → bytesLe b c = true → bytesLe a c = true
  | [], _, _, _, _ => rfl
  | _ :: _, [], _, h, _ => by simp [bytesLe] at h
  | _ :: _, _ :: _, [], _, h => by simp [bytesLe] at h
  | a :: as, b :: bs, c :: cs, h1, h2 => by
    simp only [bytesLe] at h1 h2 ⊢
    rcases Nat.lt_trichotomy a b with hab | hab | hab
    · rcases Nat.lt_trichotomy b c with hbc | hbc | hbc
      · simp [Nat.lt_trans hab hbc]
      · subst hbc; simp [hab]
      · simp [hbc, Nat.lt_asymm hbc] at h2
    · subst hab
      rcases Nat.lt_trichotomy a c with hac | hac | hac
      · simp [hac]
      · subst hac
        simp only [Nat.lt_irrefl, if_false] at h1 h2 ⊢
        exact bytesLe_trans as bs cs h1 h2
      · simp [hac, Nat.lt_asymm hac] at h2
    · simp [hab, Nat.lt_asymm hab] at h1

/-! ### AnalysisConfig and the cache key (analysis_cache.rs) -/

/-- The `dependency_analyzer::AnalysisConfig`.  `analyzer_config` models the
`HashMap<String, String>` as its list of entries in iteration order; the
map invariant (no duplicate keys) is carried separately by `ValidConfig`. -/
structure AnalysisConfig where
  ignore_patterns : List (List Nat)
  file_extensions : List (List Nat)
  max_depth : Option Nat
  follow_symlinks : Bool
  analyzer_config : List (List Nat × List Nat)
deriving DecidableEq

/-- Well-formedness of the Rust values a config holds: strings are valid
UTF-8, `max_depth` fits in `usize`, and `HashMap` keys are distinct. -/
structure ValidConfig (c : AnalysisConfig) : Prop where
  ignore_ok : ∀ s ∈ c.ignore_patterns, ValidStr s
  ext_ok : ∀ s ∈ c.file_extensions, ValidStr s
  depth_ok : ∀ n ∈ c.max_depth, n < M64
  ac_keys_ok : ∀ p ∈ c.analyzer_config, ValidStr p.1
  ac_vals_ok : ∀ p ∈ c.analyzer_config, ValidStr p.2
  ac_nodup : (c.analyzer_config.map Prod.fst).Nodup

/-- Comparison used by `sorted_config.sort_by_key(|&(k, _)| k)`. -/
def keyLe (p q : List Nat × List Nat) : Bool := bytesLe p.1 q.1

/-- The sorted view of the analyzer-specific settings that
`hash_analysis_config` hashes. -/
def sortedAnalyzerConfig (c : AnalysisConfig) : List (List Nat × List Nat) :=
  c.analyzer_config.mergeSort keyLe

/-- The byte stream `hash_analysis_config` writes into its
`DefaultHasher`: each field hashed in declaration order, the analyzer
config after sorting by key. -/
def configStream (c : AnalysisConfig) : List Nat :=
  encListStr c.ignore_patterns ++ encListStr c.file_extensions ++
    encOptU64 c.max_depth ++ encBool c.follow_symlinks ++
    encListPair (sortedAnalyzerConfig c)

/-- The `AnalysisCacheKey::hash_analysis_config`: the 16 hex chars of the
64-bit SipHash of the config stream. -/
def hash_analysis_config (c : AnalysisConfig) : List Nat :=
  hexBytes16 (sip13 (configStream c))

/-- The `analysis_cache::AnalysisCacheKey`. -/
structure AnalysisCacheKey where
  repo_url : List Nat
  commit_hash : List Nat
  subfolder : Option (List Nat)
  analyzer_name : List Nat
  analysis_config_hash : List Nat
deriving DecidableEq

/-- The `AnalysisCacheKey::new`. -/
def AnalysisCacheKey.new (repo ch : List Nat) (sub : Option (List Nat))
    (an : List Nat) (c : AnalysisConfig) : AnalysisCacheKey :=
  ⟨repo, ch, sub, an, hash_analysis_config c⟩

/-- The byte stream `to_cache_key` writes: the five fields hashed in
order with their std `Hash` impls. -/
def keyStream (k : AnalysisCacheKey) : List Nat :=
  encStr k.repo_url ++ encStr k.commit_hash ++ encOptStr k.subfolder ++
    encStr k.analyzer_name ++ encStr k.analysis_config_hash

/-- The `AnalysisCacheKey::to_cache_key`: 16 hex chars of the 64-bit hash. -/
def AnalysisCacheKey.to_cache_key (k : AnalysisCacheKey) : List Nat :=
  hexBytes16 (sip13 (keyStream k))

/-! ### Injectivity of the hasher input encoding -/

theorem encBytes_length : ∀ k n, (encBytes k n).length = k
  | 0, _ => rfl
  | k + 1, n => by simp [encBytes, encBytes_length k]

theorem leWord_cons (b : Nat) (bs : List Nat) :
    leWord (b :: bs) = b + 256 * leWord bs := rfl

theorem leWord_encBytes : ∀ k n, leWord (encBytes k n) = n % 256 ^ k
  | 0, n => by simp [encBytes, leWord, Nat.mod_one]
  | k + 1, n => by
    rw [encBytes, leWord_cons, leWord_encBytes k, pow_succ' 256 k, Nat.mod_mul]

theorem encU64_inj {n m : Nat} (hn : n < M64) (hm : m < M64)
    (h : encU64 n = encU64 m) : n = m := by
  have h2 := congrArg leWord h
  rw [encU64, encU64, leWord_encBytes, leWord_encBytes] at h2
  have h256 : (256 : Nat) ^ 8 = M64 := by norm_num [M64]
  rw [h256, Nat.mod_eq_of_lt hn, Nat.mod_eq_of_lt hm] at h2
  exact h2

/-- A `0xff`-terminated chunk determines both the chunk and the rest of
the stream, because valid UTF-8 never contains the byte `0xff`. -/
theorem encStr_append_inj : ∀ (s1 s2 r1 r2 : List Nat), ValidStr s1 → ValidStr s2 →
    s1 ++ 255 :: r1 = s2 ++ 255 :: r2 → s1 = s2 ∧ r1 = r2
  | [], [], r1, r2, _, _, h => by simpa using h
  | [], b :: bs, r1, r2, _, h2, h => by
    exfalso
    simp only [List.nil_append, List.cons_append, List.cons.injEq] at h
    have hb : b < 255 := h2 b (by simp)
    omega
  | a :: as, [], r1, r2, h1, _, h => by
    exfalso
    simp only [List.nil_append, List.cons_append, List.cons.injEq] at h
    have ha : a < 255 := h1 a (by simp)
    omega
  | a :: as, b :: bs, r1, r2, h1, h2, h => by
    simp only [List.cons_append, List.cons.injEq] at h
    obtain ⟨hab, ht⟩ := h
    obtain ⟨hs, hr⟩ := encStr_append_inj as bs r1 r2
      (fun x hx => h1 x (List.mem_cons_of_mem a hx))
      (fun x hx => h2 x (List.mem_cons_of_mem b hx)) ht
    exact ⟨by rw [hab, hs], hr⟩

/-- A concatenation of `0xff`-terminated strings is uniquely decodable. -/
theorem flattenStr_inj : ∀ l1 l2 : List (List Nat),
    (∀ s ∈ l1, ValidStr s) → (∀ s ∈ l2, ValidStr s) →
    (l1.map encStr).flatten = (l2.map encStr).flatten → l1 = l2
  | [], [], _, _, _ => rfl
  | [], s :: rest, _, _, h => by
    exfalso
    apply_fun List.length at h
    simp [encStr] at h
    try omega
  | s :: rest, [], _, _, h => by
    exfalso
    apply_fun List.length at h
    simp [encStr] at h
    try omega
  | s1 :: rest1, s2 :: rest2, hv1, hv2, h => by
    simp only [List.map_cons, List.flatten_cons, encStr, List.append_assoc,
      List.singleton_append] at h
    obtain ⟨hs, hf⟩ := encStr_append_inj s1 s2 _ _ (hv1 s1 (by simp)) (hv2 s2 (by simp)) h
    rw [hs, flattenStr_inj rest1 rest2
      (fun x hx => hv1 x (List.mem_cons_of_mem s1 hx))
      (fun x hx => hv2 x (List.mem_cons_of_mem s2 hx)) hf]

theorem encListStr_inj {l1 l2 : List (List Nat)}
    (hv1 : ∀ s ∈ l1, ValidStr s) (hv2 : ∀ s ∈ l2, ValidStr s)
    (h : encListStr l1 = encListStr l2) : l1 = l2 := by
  unfold encListStr at h
  obtain ⟨-, h2⟩ := List.append_inj h (by simp [encU64, encBytes_length])
  exact flattenStr_inj l1 l2 hv1 hv2 h2

/-- A concatenation of encoded key/value pairs is uniquely decodable. -/
theorem flattenPair_inj : ∀ l1 l2 : List (List Nat × List Nat),
    (∀ p ∈ l1, ValidStr p.1 ∧ ValidStr p.2) → (∀ p ∈ l2, ValidStr p.1 ∧ ValidStr p.2) →
    (l1.map encPair).flatten = (l2.map encPair).flatten → l1 = l2
  | [], [], _, _, _ => rfl
  | [], p :: rest, _, _, h => by
    exfalso
    apply_fun List.length at h
    simp [encPair, encStr] at h
    try omega
  | p :: rest, [], _, _, h => by
    exfalso
    apply_fun List.length at h
    simp [encPair, encStr] at h
    try omega
  | p1 :: rest1, p2 :: rest2, hv1, hv2, h => by
    simp only [List.map_cons, List.flatten_cons, encPair, encStr, List.append_assoc,
      List.singleton_append] at h
    obtain ⟨hk, h2⟩ := encStr_append_inj p1.1 p2.1 _ _
      (hv1 p1 (by simp)).1 (hv2 p2 (by simp)).1 h
    simp only [List.append_eq, List.append_assoc, List.singleton_append] at h2
    obtain ⟨hv, h3⟩ := encStr_append_inj p1.2 p2.2 _ _
      (hv1 p1 (by simp)).2 (hv2 p2 (by simp)).2 h2
    have hp : p1 = p2 := Prod.ext hk hv
    rw [hp, flattenPair_inj rest1 rest2
      (fun x hx => hv1 x (List.mem_cons_of_mem p1 hx))
      (fun x hx => hv2 x (List.mem_cons_of_mem p2 hx)) h3]

theorem encListPair_inj {l1 l2 : List (List Nat × List Nat)}
    (hv1 : ∀ p ∈ l1, ValidStr p.1 ∧ ValidStr p.2)
    (hv2 : ∀ p ∈ l2, ValidStr p.1 ∧ ValidStr p.2)
    (h : encListPair l1 = encListPair l2) : l1 = l2 := by
  unfold encListPair at h
  obtain ⟨-, h2⟩ := List.append_inj h (by simp [encU64, encBytes_length])
  exact flattenPair_inj l1 l2 hv1 hv2 h2

theorem encOptU64_inj {o1 o2 : Option Nat}
    (h1 : ∀ n ∈ o1, n < M64) (h2 : ∀ n ∈ o2, n < M64)
    (h : encOptU64 o1 = encOptU64 o2) : o1 = o2 := by
  cases o1 with
  | none =>
    cases o2 with
    | none => rfl
    | some m =>
      exfalso
      apply_fun List.length at h
      simp [encOptU64, encU64, encBytes_length] at h
  | some n =>
    cases o2 with
    | none =>
      exfalso
      apply_fun List.length at h
      simp [encOptU64, encU64, encBytes_length] at h
    | some m =>
      simp only [encOptU64] at h
      have h3 := List.append_cancel_left h
      exact congrArg some (encU64_inj (h1 n rfl) (h2 m rfl) h3)

theorem encBool_inj {b1 b2 : Bool} (h : encBool b1 = encBool b2) : b1 = b2 := by
  cases b1 <;> cases b2 <;> simp_all [encBool]

/-- Stable sorting by key maps permuted entry lists with distinct keys to
the same sorted list: the canonical view the config hash is computed
over. -/
theorem sortedAnalyzerConfig_perm_eq {l1 l2 : List (List Nat × List Nat)}
    (hp : List.Perm l1 l2) (hnd : (l1.map Prod.fst).Nodup) :
    List.mergeSort l1 keyLe = List.mergeSort l2 keyLe := by
  have htrans : ∀ a b c : List Nat × List Nat, keyLe a b → keyLe b c → keyLe a c :=
    fun a b c h1 h2 => bytesLe_trans a.1 b.1 c.1 h1 h2
  have htotal : ∀ a b : List Nat × List Nat, keyLe a b || keyLe b a := by
    intro a b
    rcases bytesLe_total a.1 b.1 with h | h <;> simp [keyLe, h]
  haveI : IsAntisymm (List Nat × List Nat) (fun p q => keyLe p q = true ∧ p.1 ≠ q.1) :=
    ⟨fun p q hpq hqp => (hpq.2 (bytesLe_antisymm p.1 q.1 hpq.1 hqp.1)).elim⟩
  have hperm : List.Perm (List.mergeSort l1 keyLe) (List.mergeSort l2 keyLe) :=
    (List.mergeSort_perm l1 keyLe).trans (hp.trans (List.mergeSort_perm l2 keyLe).symm)
  have hnd2 : (l2.map Prod.fst).Nodup := ((hp.map Prod.fst)).nodup hnd
  have hs1le : List.Sorted (fun p q => keyLe p q = true) (List.mergeSort l1 keyLe) := by
    have h := List.sorted_mergeSort htrans htotal l1
    simpa [List.Sorted] using h
  have hs2le : List.Sorted (fun p q => keyLe p q = true) (List.mergeSort l2 keyLe) := by
    have h := List.sorted_mergeSort htrans htotal l2
    simpa [List.Sorted] using h
  have hnd1' : ((List.mergeSort l1 keyLe).map Prod.fst).Nodup :=
    (((List.mergeSort_perm l1 keyLe).map Prod.fst).symm).nodup hnd
  have hnd2' : ((List.mergeSort l2 keyLe).map Prod.fst).Nodup :=
    (((List.mergeSort_perm l2 keyLe).map Prod.fst).symm).nodup hnd2
  have hs1 : List.Sorted (fun p q => keyLe p q = true ∧ p.1 ≠ q.1) (List.mergeSort l1 keyLe) :=
    hs1le.and (List.pairwise_map.mp hnd1')
  have hs2 : List.Sorted (fun p q => keyLe p q = true ∧ p.1 ≠ q.1) (List.mergeSort l2 keyLe) :=
    hs2le.and (List.pairwise_map.mp hnd2')
  exact List.eq_of_perm_of_sorted hperm hs1 hs2

/-- Exactly one `AnalysisConfig` field differs.  The analyzer-specific
settings are a `HashMap`, so "equal" for that field means equal as
unordered maps (entry lists are permutations) and "differs" means not
permutations. -/
def DiffersInOneField (c1 c2 : AnalysisConfig) : Prop :=
  (c1.ignore_patterns ≠ c2.ignore_patterns ∧
    c1.file_extensions = c2.file_extensions ∧ c1.max_depth = c2.max_depth ∧
    c1.follow_symlinks = c2.follow_symlinks ∧
    List.Perm c1.analyzer_config c2.analyzer_config) ∨
  (c1.ignore_patterns = c2.ignore_patterns ∧ c1.file_extensions ≠ c2.file_extensions ∧
    c1.max_depth = c2.max_depth ∧ c1.follow_symlinks = c2.follow_symlinks ∧
    List.Perm c1.analyzer_config c2.analyzer_config) ∨
  (c1.ignore_patterns = c2.ignore_patterns ∧ c1.file_extensions = c2.file_extensions ∧
    c1.max_depth ≠ c2.max_depth ∧ c1.follow_symlinks = c2.follow_symlinks ∧
    List.Perm c1.analyzer_config c2.analyzer_config) ∨
  (c1.ignore_patterns = c2.ignore_patterns ∧ c1.file_extensions = c2.file_extensions ∧
    c1.max_depth = c2.max_depth ∧ c1.follow_symlinks ≠ c2.follow_symlinks ∧
    List.Perm c1.analyzer_config c2.analyzer_config) ∨
  (c1.ignore_patterns = c2.ignore_patterns ∧ c1.file_extensions = c2.file_extensions ∧
    c1.max_depth = c2.max_depth ∧ c1.follow_symlinks = c2.follow_symlinks ∧
    ¬ List.Perm c1.analyzer_config c2.analyzer_config)

/-- Changing a single config field always changes the byte stream fed to
the 64-bit hasher (the hash itself can still collide). -/
theorem configStream_inj {c1 c2 : AnalysisConfig} (hv1 : ValidConfig c1)
    (hv2 : ValidConfig c2) (hd : DiffersInOneField c1 c2) :
    configStream c1 ≠ configStream c2 := by
  intro h
  unfold configStream at h
  rcases hd with ⟨hne, h2, h3, h4, h5⟩ | ⟨h1, hne, h3, h4, h5⟩ |
    ⟨h1, h2, hne, h4, h5⟩ | ⟨h1, h2, h3, hne, h5⟩ | ⟨h1, h2, h3, h4, hne⟩
  · have hac : sortedAnalyzerConfig c1 = sortedAnalyzerConfig c2 :=
      sortedAnalyzerConfig_perm_eq h5 hv1.ac_nodup
    rw [h2, h3, h4, hac] at h
    have h' := List.append_cancel_right (List.append_cancel_right
      (List.append_cancel_right (List.append_cancel_right h)))
    exact hne (encListStr_inj hv1.ignore_ok hv2.ignore_ok h')
  · have hac : sortedAnalyzerConfig c1 = sortedAnalyzerConfig c2 :=
      sortedAnalyzerConfig_perm_eq h5 hv1.ac_nodup
    rw [h1, h3, h4, hac] at h
    have h' := List.append_cancel_left (List.append_cancel_right
      (List.append_cancel_right (List.append_cancel_right h)))
    exact hne (encListStr_inj hv1.ext_ok hv2.ext_ok h')
  · have hac : sortedAnalyzerConfig c1 = sortedAnalyzerConfig c2 :=
      sortedAnalyzerConfig_perm_eq h5 hv1.ac_nodup
    rw [h1, h2, h4, hac] at h
    have h' := List.append_cancel_left (List.append_cancel_right (List.append_cancel_right h))
    exact hne (encOptU64_inj hv1.depth_ok hv2.depth_ok h')
  · have hac : sortedAnalyzerConfig c1 = sortedAnalyzerConfig c2 :=
      sortedAnalyzerConfig_perm_eq h5 hv1.ac_nodup
    rw [h1, h2, h3, hac] at h
    have h' := List.append_cancel_left (List.append_cancel_right h)
    exact hne (encBool_inj h')
  · rw [h1, h2, h3, h4] at h
    have h' := List.append_cancel_left h
    have hmem1 : ∀ p ∈ sortedAnalyzerConfig c1, ValidStr p.1 ∧ ValidStr p.2 := by
      intro p hp
      have hm : p ∈ c1.analyzer_config := List.mem_mergeSort.mp hp
      exact ⟨hv1.ac_keys_ok p hm, hv1.ac_vals_ok p hm⟩
    have hmem2 : ∀ p ∈ sortedAnalyzerConfig c2, ValidStr p.1 ∧ ValidStr p.2 := by
      intro p hp
      have hm : p ∈ c2.analyzer_config := List.mem_mergeSort.mp hp
      exact ⟨hv2.ac_keys_ok p hm, hv2.ac_vals_ok p hm⟩
    have hsort : sortedAnalyzerConfig c1 = sortedAnalyzerConfig c2 :=
      encListPair_inj hmem1 hmem2 h'
    have p1 : List.Perm (sortedAnalyzerConfig c1) c1.analyzer_config :=
      List.mergeSort_perm _ keyLe
    have p2 : List.Perm (sortedAnalyzerConfig c2) c2.analyzer_config :=
      List.mergeSort_perm _ keyLe
    rw [hsort] at p1
    exact hne (p1.symm.trans p2)

/-- Family of configs that differ only in `ignore_patterns` (a single
pattern of `k` letters `a`), used for the pigeonhole argument. -/
def cexC2Config (k : Nat) : AnalysisConfig :=
  ⟨[List.replicate k 97], [], none, false, []⟩

theorem cexC2Config_valid (k : Nat) : ValidConfig (cexC2Config k) := by
  refine ⟨?_, ?_, ?_, ?_, ?_, ?_⟩ <;> simp [cexC2Config, ValidStr]

/-- C2, counterexample.  The cache key is the 16-hex-character image of a
64-bit hash, so among the infinitely many configs that differ from each
other only in their ignore patterns, two must collide: the claimed
injectivity over single-field changes is violated by some pair of valid
inputs.  (The collision is obtained by pigeonhole, not exhibited.) -/
theorem cacheKey_single_field_collision_exists :
    ∃ (repo ch : List Nat) (sub : Option (List Nat)) (an : List Nat)
      (c1 c2 : AnalysisConfig),
      ValidStr repo ∧ ValidStr ch ∧ (∀ s ∈ sub, ValidStr s) ∧ ValidStr an ∧
      ValidConfig c1 ∧ ValidConfig c2 ∧ DiffersInOneField c1 c2 ∧
      (AnalysisCacheKey.new repo ch sub an c1).to_cache_key =
        (AnalysisCacheKey.new repo ch sub an c2).to_cache_key := by
  obtain ⟨k, m, hkm, heq⟩ := Finite.exists_ne_map_eq_of_infinite
    (fun k : Nat => (⟨sip13 (configStream (cexC2Config k)), sip13_lt _⟩ : Fin M64))
  have hsip : sip13 (configStream (cexC2Config k)) =
      sip13 (configStream (cexC2Config m)) := congrArg Fin.val heq
  refine ⟨[], [], none, [], cexC2Config k, cexC2Config m,
    by simp [ValidStr], by simp [ValidStr], by simp, by simp [ValidStr],
    cexC2Config_valid k, cexC2Config_valid m, ?_, ?_⟩
  · refine Or.inl ⟨?_, rfl, rfl, rfl, List.Perm.refl _⟩
    intro hip
    simp only [cexC2Config, List.cons.injEq, and_true] at hip
    have hlen := congrArg List.length hip
    simp only [List.length_replicate] at hlen
    exact hkm hlen
  · unfold AnalysisCacheKey.to_cache_key keyStream AnalysisCacheKey.new
      hash_analysis_config
    rw [hsip]

/-- C2, amended.  Deriving the key twice from identical inputs yields the
same string, and changing any single `AnalysisConfig` field always
changes the byte stream fed to the 64-bit hasher (so keys differ unless
the 64-bit hash itself collides, which the counterexample shows cannot be
excluded). -/
theorem cacheKey_deterministic_and_stream_injective :
    (∀ (repo ch : List Nat) (sub : Option (List Nat)) (an : List Nat)
      (c : AnalysisConfig),
      (AnalysisCacheKey.new repo ch sub an c).to_cache_key =
        (AnalysisCacheKey.new repo ch sub an c).to_cache_key) ∧
    (∀ c1 c2 : AnalysisConfig, ValidConfig c1 → ValidConfig c2 →
      DiffersInOneField c1 c2 → configStream c1 ≠ configStream c2) :=
  ⟨fun _ _ _ _ _ => rfl, fun _ _ h1 h2 hd => configStream_inj h1 h2 hd⟩

/-- A pair of configs differing only in the symlink flag. -/
def wSymA : AnalysisConfig := ⟨[], [], none, false, []⟩

/-- Same as `wSymA` with `follow_symlinks` flipped. -/
def wSymB : AnalysisConfig := ⟨[], [], none, true, []⟩

theorem cacheKey_stream_injective_witness :
    ValidConfig wSymA ∧ ValidConfig wSymB ∧ DiffersInOneField wSymA wSymB ∧
      configStream wSymA ≠ configStream wSymB := by
  have hA : ValidConfig wSymA := by
    refine ⟨?_, ?_, ?_, ?_, ?_, ?_⟩ <;> simp [wSymA, ValidStr]
  have hB : ValidConfig wSymB := by
    refine ⟨?_, ?_, ?_, ?_, ?_, ?_⟩ <;> simp [wSymB, ValidStr]
  have hD : DiffersInOneField wSymA wSymB :=
    Or.inr (Or.inr (Or.inr (Or.inl
      ⟨rfl, rfl, rfl, by simp [wSymA, wSymB], List.Perm.refl _⟩)))
  exact ⟨hA, hB, hD,
    cacheKey_deterministic_and_stream_injective.2 wSymA wSymB hA hB hD⟩

/-- C7.  If two configs agree on every plain field and their
analyzer-specific settings are equal as unordered maps (their entry lists
are permutations of each other, with distinct keys), the config hash and
hence the derived cache key are identical, because the hash is computed
over the sorted view of the settings. -/
theorem config_hash_order_independent :
    ∀ c1 c2 : AnalysisConfig, ValidConfig c1 →
      c1.ignore_patterns = c2.ignore_patterns →
      c1.file_extensions = c2.file_extensions →
      c1.max_depth = c2.max_depth →
      c1.follow_symlinks = c2.follow_symlinks →
      List.Perm c1.analyzer_config c2.analyzer_config →
      hash_analysis_config c1 = hash_analysis_config c2 ∧
      ∀ (repo ch : List Nat) (sub : Option (List Nat)) (an : List Nat),
        (AnalysisCacheKey.new repo ch sub an c1).to_cache_key =
          (AnalysisCacheKey.new repo ch sub an c2).to_cache_key := by
  intro c1 c2 hv h1 h2 h3 h4 hp
  have hsorted : sortedAnalyzerConfig c1 = sortedAnalyzerConfig c2 :=
    sortedAnalyzerConfig_perm_eq hp hv.ac_nodup
  have hstream : configStream c1 = configStream c2 := by
    unfold configStream
    rw [h1, h2, h3, h4, hsorted]
  have hhash : hash_analysis_config c1 = hash_analysis_config c2 := by
    unfold hash_analysis_config
    rw [hstream]
  refine ⟨hhash, fun repo ch sub an => ?_⟩
  unfold AnalysisCacheKey.to_cache_key keyStream AnalysisCacheKey.new
  rw [hhash]

/-- Two-entry analyzer settings in one insertion order. -/
def wOrdA : AnalysisConfig := ⟨[], [], none, false, [([107], [118]), ([108], [119])]⟩

/-- The same two entries in the opposite insertion order. -/
def wOrdB : AnalysisConfig := ⟨[], [], none, false, [([108], [119]), ([107], [118])]⟩

theorem config_hash_order_independent_witness :
    ValidConfig wOrdA ∧ List.Perm wOrdA.analyzer_config wOrdB.analyzer_config ∧
      hash_analysis_config wOrdA = hash_analysis_config wOrdB := by
  have hv : ValidConfig wOrdA := by
    refine ⟨?_, ?_, ?_, ?_, ?_, ?_⟩ <;> simp [wOrdA, ValidStr]
  have hp : List.Perm wOrdA.analyzer_config wOrdB.analyzer_config := by
    simp only [wOrdA, wOrdB]
    exact List.Perm.swap _ _ _
  exact ⟨hv, hp,
    (config_hash_order_independent wOrdA wOrdB hv rfl rfl rfl rfl hp).1⟩

/-! ### The result cache (analysis_cache.rs): blobs, index, get/put -/

/-- The `dependency_analyzer::RawDependency`, with its two file identities. -/
structure RawDependency where
  source_file : List Nat
  target_file : List Nat
deriving DecidableEq

/-- Projection of `dependency_analyzer::AnalysisResult` to the fields the
cache logic observes: `put` records `analyzed_files.len()` and
`dependencies.len()` in the index row, and the round-trip property
compares dependency count, analyzer name and analyzed-file count.  The
remaining fields (versions, timestamps, metrics, the float-valued quality
score) travel opaquely inside the serialized blob and never influence the
cache mechanics. -/
structure AnalysisResult where
  dependencies : List RawDependency
  analyzer_name : List Nat
  analyzed_files : List (List Nat)
deriving DecidableEq

/-- bincode-style field serialization: a `u64` length prefix, then the
payload bytes; fields and elements in declaration order. -/
def serStr (s : List Nat) : List Nat := encU64 s.length ++ s

def serDep (d : RawDependency) : List Nat :=
  serStr d.source_file ++ serStr d.target_file

def serList {α : Type} (f : α → List Nat) (l : List α) : List Nat :=
  encU64 l.length ++ (l.map f).flatten

/-- The `bincode::serialize` of an analysis result. -/
def serialize (r : AnalysisResult) : List Nat :=
  serList serDep r.dependencies ++ serStr r.analyzer_name ++
    serList serStr r.analyzed_files

def parseU64 (bs : List Nat) : Option (Nat × List Nat) :=
  if 8 ≤ bs.length then some (leWord (bs.take 8), bs.drop 8) else none

def parseChunk (n : Nat) (bs : List Nat) : Option (List Nat × List Nat) :=
  if n ≤ bs.length then some (bs.take n, bs.drop n) else none

def parseStr (bs : List Nat) : Option (List Nat × List Nat) :=
  (parseU64 bs).bind fun p => parseChunk p.1 p.2

def parseDep (bs : List Nat) : Option (RawDependency × List Nat) :=
  (parseStr bs).bind fun p1 =>
    (parseStr p1.2).map fun p2 => (⟨p1.1, p2.1⟩, p2.2)

def parseCount {α : Type} (p : List Nat → Option (α × List Nat)) :
    Nat → List Nat → Option (List α × List Nat)
  | 0, bs => some ([], bs)
  | k + 1, bs =>
    (p bs).bind fun a => (parseCount p k a.2).map fun l => (a.1 :: l.1, l.2)

def parseList {α : Type} (p : List Nat → Option (α × List Nat))
    (bs : List Nat) : Option (List α × List Nat) :=
  (parseU64 bs).bind fun n => parseCount p n.1 n.2

/-- The `bincode::deserialize`: fails (`none`) unless the bytes are a
complete, exact serialization of a result. -/
def deserialize (bs : List Nat) : Option AnalysisResult :=
  (parseList parseDep bs).bind fun d =>
    (parseStr d.2).bind fun an =>
      (parseList parseStr an.2).bind fun fs =>
        if fs.2 = [] then some ⟨d.1, an.1, fs.1⟩ else none

/-- All lengths fit in `u64`, as every Rust `usize` does. -/
def ValidResult (r : AnalysisResult) : Prop :=
  r.dependencies.length < M64 ∧ r.analyzer_name.length < M64 ∧
  r.analyzed_files.length < M64 ∧
  (∀ d ∈ r.dependencies, d.source_file.length < M64 ∧ d.target_file.length < M64) ∧
  (∀ f ∈ r.analyzed_files, f.length < M64)

theorem parseU64_append (n : Nat) (rest : List Nat) (h : n < M64) :
    parseU64 (encU64 n ++ rest) = some (n, rest) := by
  have hlen : (encU64 n).length = 8 := by simp [encU64, encBytes_length]
  have hle : 8 ≤ (encU64 n ++ rest).length := by
    simp [List.length_append, hlen]
  unfold parseU64
  rw [if_pos hle, List.take_left' hlen, List.drop_left' hlen]
  have hw : leWord (encU64 n) = n := by
    rw [encU64, leWord_encBytes]
    have h8 : (256 : Nat) ^ 8 = M64 := by norm_num [M64]
    rw [h8, Nat.mod_eq_of_lt h]
  rw [hw]

theorem parseChunk_append (s rest : List Nat) :
    parseChunk s.length (s ++ rest) = some (s, rest) := by
  unfold parseChunk
  rw [if_pos (by simp), List.take_left, List.drop_left]

theorem parseStr_append (s rest : List Nat) (h : s.length < M64) :
    parseStr (serStr s ++ rest) = some (s, rest) := by
  unfold parseStr serStr
  rw [List.append_assoc, parseU64_append _ _ h]
  simp [parseChunk_append]

theorem parseDep_append (d : RawDependency) (rest : List Nat)
    (h1 : d.source_file.length < M64) (h2 : d.target_file.length < M64) :
    parseDep (serDep d ++ rest) = some (d, rest) := by
  unfold parseDep serDep
  rw [List.append_assoc, parseStr_append _ _ h1]
  simp [parseStr_append _ _ h2]

theorem parseCount_append {α : Type} (p : List Nat → Option (α × List Nat))
    (f : α → List Nat) : ∀ (l : List α) (rest : List Nat),
    (∀ a ∈ l, ∀ r, p (f a ++ r) = some (a, r)) →
    parseCount p l.length ((l.map f).flatten ++ rest) = some (l, rest)
  | [], rest, _ => by simp [parseCount]
  | a :: as, rest, hp => by
    simp only [List.map_cons, List.flatten_cons, List.length_cons, List.append_assoc]
    rw [parseCount, hp a (by simp) _]
    simp only [Option.some_bind]
    rw [parseCount_append p f as rest
      (fun x hx r => hp x (List.mem_cons_of_mem a hx) r)]
    rfl

theorem parseList_append {α : Type} (p : List Nat → Option (α × List Nat))
    (f : α → List Nat) (l : List α) (rest : List Nat) (hl : l.length < M64)
    (hp : ∀ a ∈ l, ∀ r, p (f a ++ r) = some (a, r)) :
    parseList p (serList f l ++ rest) = some (l, rest) := by
  unfold parseList serList
  rw [List.append_assoc, parseU64_append _ _ hl]
  simp [parseCount_append p f l rest hp]

/-- bincode round-trip: deserializing an exact serialization restores the
result (the documented contract of the external `bincode` crate). -/
theorem deserialize_serialize (r : AnalysisResult) (h : ValidResult r) :
    deserialize (serialize r) = some r := by
  obtain ⟨h1, h2, h3, h4, h5⟩ := h
  unfold deserialize serialize
  rw [List.append_assoc,
    parseList_append parseDep serDep r.dependencies _ h1
      (fun d hd rr => parseDep_append d rr (h4 d hd).1 (h4 d hd).2)]
  simp only [Option.some_bind]
  rw [parseStr_append _ _ h2]
  simp only [Option.some_bind]
  rw [← List.append_nil (serList serStr r.analyzed_files),
    parseList_append parseStr serStr r.analyzed_files [] h3
      (fun f hf rr => parseStr_append f rr (h5 f hf))]
  rfl

theorem deserialize_nil : deserialize [] = none := rfl

/-! ### Cache state: the SQLite index plus the blob directory -/

/-- One row of the `analysis_cache` table (`CacheEntryMetadata` plus the
`analysis_config_hash` column). -/
structure CacheRow where
  cache_key : List Nat
  repo_url : List Nat
  commit_hash : List Nat
  subfolder : Option (List Nat)
  analyzer_name : List Nat
  analysis_config_hash : List Nat
  created_at : Nat
  last_accessed : Nat
  file_count : Nat
  dependency_count : Nat
  file_size : Nat
deriving DecidableEq

/-- The observable state of an `AnalysisCache`: the index rows and the
blob files (path, bytes) under `analysis/`. -/
structure CacheState where
  index : List CacheRow
  files : List (List Nat × List Nat)
deriving DecidableEq

def emptyCache : CacheState := ⟨[], []⟩

/-- Read a file: `fs::read` of the first entry at the path. -/
def lookupFile : List (List Nat × List Nat) → List Nat → Option (List Nat)
  | [], _ => none
  | e :: rest, p => if e.1 = p then some e.2 else lookupFile rest p

/-- Delete a file (`fs::remove_file`); absent paths are left alone. -/
def removeFile : List (List Nat × List Nat) → List Nat → List (List Nat × List Nat)
  | [], _ => []
  | e :: rest, p => if e.1 = p then removeFile rest p else e :: removeFile rest p

/-- The `fs::write`: create or overwrite the file at the path. -/
def writeFile (fs : List (List Nat × List Nat)) (p data : List Nat) :
    List (List Nat × List Nat) :=
  (p, data) :: removeFile fs p

/-- The `SELECT ... FROM analysis_cache WHERE cache_key = ?` (primary key). -/
def lookupRow : List CacheRow → List Nat → Option CacheRow
  | [], _ => none
  | r :: rest, k => if r.cache_key = k then some r else lookupRow rest k

/-- The `DELETE FROM analysis_cache WHERE cache_key = ?`. -/
def deleteKey : List CacheRow → List Nat → List CacheRow
  | [], _ => []
  | r :: rest, k => if r.cache_key = k then deleteKey rest k else r :: deleteKey rest k

/-- The `UPDATE analysis_cache SET last_accessed = ? WHERE cache_key = ?`. -/
def updateAccess (rows : List CacheRow) (k : List Nat) (now : Nat) : List CacheRow :=
  rows.map fun r => if r.cache_key = k then { r with last_accessed := now } else r

/-- The `SELECT ... WHERE repo_url = ?`, in table order. -/
def rowsForRepo : List CacheRow → List Nat → List CacheRow
  | [], _ => []
  | r :: rest, repo =>
    if r.repo_url = repo then r :: rowsForRepo rest repo else rowsForRepo rest repo

/-- The `DELETE FROM analysis_cache WHERE repo_url = ?`. -/
def deleteRepo : List CacheRow → List Nat → List CacheRow
  | [], _ => []
  | r :: rest, repo =>
    if r.repo_url = repo then deleteRepo rest repo else r :: deleteRepo rest repo

/-- Number of index rows carrying a given cache key. -/
def countKey : List CacheRow → List Nat → Nat
  | [], _ => 0
  | r :: rest, k => (if r.cache_key = k then 1 else 0) + countKey rest k

/-- ASCII bytes of the directory part of a blob path (`analysis/`). -/
def analysisDir : List Nat := [97, 110, 97, 108, 121, 115, 105, 115, 47]

/-- ASCII bytes of the blob extension (`.bincode`). -/
def bincodeExt : List Nat := [46, 98, 105, 110, 99, 111, 100, 101]

/-- The `get_cache_file_path`: `analysis/{cache_key}.bincode`. -/
def cacheFilePath (ck : List Nat) : List Nat := analysisDir ++ ck ++ bincodeExt

theorem cacheFilePath_inj {a b : List Nat} (h : cacheFilePath a = cacheFilePath b) :
    a = b := by
  unfold cacheFilePath at h
  have h1 := List.append_cancel_right h
  exact List.append_cancel_left h1

/-- The `AnalysisCache::remove_entry`: delete the blob if present, then the
index row. -/
def cache_remove_entry (st : CacheState) (ck : List Nat) : CacheState :=
  ⟨deleteKey st.index ck, removeFile st.files (cacheFilePath ck)⟩

/-- The `AnalysisCache::get`.  Index miss returns `none`; a present row with
a readable, deserializable blob is a hit and refreshes `last_accessed`;
an unreadable/corrupt blob removes the entry (self-healing); a missing
blob deletes the stale row. -/
def cache_get (st : CacheState) (now : Nat) (key : AnalysisCacheKey) :
    Option AnalysisResult × CacheState :=
  let ck := key.to_cache_key
  match lookupRow st.index ck with
  | none => (none, st)
  | some _ =>
    match lookupFile st.files (cacheFilePath ck) with
    | some data =>
      match deserialize data with
      | some result => (some result, ⟨updateAccess st.index ck now, st.files⟩)
      | none => (none, cache_remove_entry st ck)
    | none => (none, ⟨deleteKey st.index ck, st.files⟩)

/-- The `AnalysisCache::put`: write the blob, then `INSERT OR REPLACE` the
index row with fresh counts and timestamps. -/
def cache_put (st : CacheState) (now : Nat) (key : AnalysisCacheKey)
    (result : AnalysisResult) : CacheState :=
  let ck := key.to_cache_key
  let data := serialize result
  ⟨{ cache_key := ck, repo_url := key.repo_url, commit_hash := key.commit_hash,
     subfolder := key.subfolder, analyzer_name := key.analyzer_name,
     analysis_config_hash := key.analysis_config_hash,
     created_at := now, last_accessed := now,
     file_count := result.analyzed_files.length,
     dependency_count := result.dependencies.length,
     file_size := data.length } :: deleteKey st.index ck,
   writeFile st.files (cacheFilePath ck) data⟩

/-- The per-key file removal loop of `remove_repository`: delete each
existing blob, collecting the removed paths in iteration order. -/
def removeFilesForKeys : List (List Nat) → List (List Nat × List Nat) →
    List (List Nat) × List (List Nat × List Nat)
  | [], fs => ([], fs)
  | ck :: rest, fs =>
    let path := cacheFilePath ck
    match lookupFile fs path with
    | some _ =>
      let res := removeFilesForKeys rest (removeFile fs path)
      (path :: res.1, res.2)
    | none => removeFilesForKeys rest fs

/-- The `AnalysisCache::remove_repository`: collect the keys of the matching
rows, remove their blobs (returning the removed paths), then delete the
matching rows. -/
def cache_remove_repository (st : CacheState) (repo : List Nat) :
    List (List Nat) × CacheState :=
  let keys := (rowsForRepo st.index repo).map (fun r => r.cache_key)
  let res := removeFilesForKeys keys st.files
  (res.1, ⟨deleteRepo st.index repo, res.2⟩)

theorem countKey_deleteKey : ∀ (rows : List CacheRow) (k : List Nat),
    countKey (deleteKey rows k) k = 0
  | [], _ => rfl
  | r :: rest, k => by
    by_cases h : r.cache_key = k <;>
      simp [deleteKey, countKey, h, countKey_deleteKey rest k]

theorem lookupFile_removeFile : ∀ (fs : List (List Nat × List Nat)) (p : List Nat),
    lookupFile (removeFile fs p) p = none
  | [], _ => rfl
  | e :: rest, p => by
    by_cases h : e.1 = p <;>
      simp [removeFile, lookupFile, h, lookupFile_removeFile rest p]

/-- C3.  `put(key, result)` followed by `get(key)` on the same cache hits
and returns a result whose dependency count, analyzer name and
analyzed-file count equal those of the stored result (in fact the stored
result itself). -/
theorem cache_put_get_roundtrip (st : CacheState) (now1 now2 : Nat)
    (key : AnalysisCacheKey) (r : AnalysisResult) (hv : ValidResult r) :
    ∃ r', (cache_get (cache_put st now1 key r) now2 key).1 = some r' ∧
      r'.dependencies.length = r.dependencies.length ∧
      r'.analyzer_name = r.analyzer_name ∧
      r'.analyzed_files.length = r.analyzed_files.length := by
  refine ⟨r, ?_, rfl, rfl, rfl⟩
  simp [cache_get, cache_put, lookupRow, writeFile, lookupFile,
    deserialize_serialize r hv]

/-- A concrete cache key for witnesses. -/
def wKey : AnalysisCacheKey := ⟨[114], [99], none, [108], [104]⟩

/-- A concrete analysis result for witnesses: one dependency, analyzer
name `test`, one analyzed file. -/
def wRes : AnalysisResult :=
  ⟨[⟨[109, 97, 105, 110], [99, 102, 103]⟩], [116, 101, 115, 116], [[109, 97, 105, 110]]⟩

theorem wRes_valid : ValidResult wRes :=
  ⟨by decide, by decide, by decide, by decide, by decide⟩

set_option maxRecDepth 2000 in
theorem cache_put_get_roundtrip_witness :
    ∃ r', (cache_get (cache_put emptyCache 0 wKey wRes) 1 wKey).1 = some r' ∧
      r'.dependencies.length = wRes.dependencies.length ∧
      r'.analyzer_name = wRes.analyzer_name ∧
      r'.analyzed_files.length = wRes.analyzed_files.length :=
  cache_put_get_roundtrip emptyCache 0 1 wKey wRes wRes_valid

/-- Overwrite the blob of a cache entry on disk, leaving the index rows
untouched (the corruption step of the recovery scenario). -/
def corruptBlob (st : CacheState) (ck bad : List Nat) : CacheState :=
  ⟨st.index, writeFile st.files (cacheFilePath ck) bad⟩

/-- C4.  After a successful `put`, overwriting the entry's blob with
bytes that fail to deserialize makes the next `get` return `none`,
delete every index row for that key, and delete the blob itself. -/
theorem cache_corrupt_blob_self_heal (st : CacheState) (now1 now2 : Nat)
    (key : AnalysisCacheKey) (r : AnalysisResult) (bad : List Nat)
    (hbad : deserialize bad = none) :
    (cache_get (corruptBlob (cache_put st now1 key r) key.to_cache_key bad)
      now2 key).1 = none ∧
    countKey (cache_get (corruptBlob (cache_put st now1 key r) key.to_cache_key bad)
      now2 key).2.index key.to_cache_key = 0 ∧
    lookupFile (cache_get (corruptBlob (cache_put st now1 key r) key.to_cache_key bad)
      now2 key).2.files (cacheFilePath key.to_cache_key) = none := by
  simp [cache_get, corruptBlob, cache_put, writeFile, lookupFile, lookupRow,
    hbad, cache_remove_entry, countKey, deleteKey, countKey_deleteKey,
    lookupFile_removeFile]

set_option maxRecDepth 2000 in
theorem cache_corrupt_blob_self_heal_witness :
    (cache_get (corruptBlob (cache_put emptyCache 0 wKey wRes) wKey.to_cache_key [])
      1 wKey).1 = none ∧
    countKey (cache_get (corruptBlob (cache_put emptyCache 0 wKey wRes)
      wKey.to_cache_key []) 1 wKey).2.index wKey.to_cache_key = 0 ∧
    lookupFile (cache_get (corruptBlob (cache_put emptyCache 0 wKey wRes)
      wKey.to_cache_key []) 1 wKey).2.files (cacheFilePath wKey.to_cache_key) = none :=
  cache_corrupt_blob_self_heal emptyCache 0 1 wKey wRes [] deserialize_nil

/-- C8.  With one entry per repository, `remove_repository(repoA)`
returns exactly repoA's blob path, deletes repoA's row and blob, and
leaves the other repository's entry retrievable. -/
theorem remove_repository_exact (keyA keyB : AnalysisCacheKey)
    (rA rB : AnalysisResult) (nA nB now : Nat)
    (hrepo : keyA.repo_url ≠ keyB.repo_url)
    (hck : keyA.to_cache_key ≠ keyB.to_cache_key)
    (hvB : ValidResult rB) :
    (cache_remove_repository (cache_put (cache_put emptyCache nA keyA rA) nB keyB rB)
      keyA.repo_url).1 = [cacheFilePath keyA.to_cache_key] ∧
    (cache_get (cache_remove_repository (cache_put (cache_put emptyCache nA keyA rA)
      nB keyB rB) keyA.repo_url).2 now keyB).1 = some rB ∧
    rowsForRepo (cache_remove_repository (cache_put (cache_put emptyCache nA keyA rA)
      nB keyB rB) keyA.repo_url).2.index keyA.repo_url = [] ∧
    lookupFile (cache_remove_repository (cache_put (cache_put emptyCache nA keyA rA)
      nB keyB rB) keyA.repo_url).2.files (cacheFilePath keyA.to_cache_key) = none := by
  have hpath : cacheFilePath keyA.to_cache_key ≠ cacheFilePath keyB.to_cache_key :=
    fun hh => hck (cacheFilePath_inj hh)
  simp [cache_put, cache_remove_repository, cache_get, emptyCache, rowsForRepo,
    deleteRepo, deleteKey, removeFilesForKeys, lookupFile, writeFile, removeFile,
    lookupRow, hrepo, Ne.symm hrepo, hck, Ne.symm hck, hpath, Ne.symm hpath,
    deserialize_serialize rB hvB]

/-- A second concrete key, for a different repository. -/
def wKeyB : AnalysisCacheKey := ⟨[98], [100], none, [108], [104]⟩

set_option maxRecDepth 2000 in
theorem remove_repository_exact_witness :
    (cache_remove_repository (cache_put (cache_put emptyCache 0 wKey wRes) 0 wKeyB wRes)
      wKey.repo_url).1 = [cacheFilePath wKey.to_cache_key] ∧
    (cache_get (cache_remove_repository (cache_put (cache_put emptyCache 0 wKey wRes)
      0 wKeyB wRes) wKey.repo_url).2 1 wKeyB).1 = some wRes ∧
    rowsForRepo (cache_remove_repository (cache_put (cache_put emptyCache 0 wKey wRes)
      0 wKeyB wRes) wKey.repo_url).2.index wKey.repo_url = [] ∧
    lookupFile (cache_remove_repository (cache_put (cache_put emptyCache 0 wKey wRes)
      0 wKeyB wRes) wKey.repo_url).2.files (cacheFilePath wKey.to_cache_key) = none :=
  remove_repository_exact wKey wKeyB wRes wRes 0 0 1 (by decide) (by decide) wRes_valid

/-! ### The analysis engine (chronograph_engine.rs): commit sampling -/

/-- The `git_navigator::CommitInfo`. -/
structure CommitInfo where
  hash : List Nat
  author_name : List Nat
  author_email : List Nat
  message : List Nat
  timestamp : Int
  merge_parent_hash : Option (List Nat)
deriving DecidableEq

/-- A commit with hash `[n]` and empty metadata, for concrete inputs. -/
def mkC (n : Nat) : CommitInfo := ⟨[n], [], [], [], 0, none⟩

/-- The first loop of `sample_commits`, enumerating `(index, commit)`:
always keep index `0` and `len - 1`; otherwise keep the commit when
`index % commit_sampling == 0`.  Rust's `%` panics when the stride is `0`
(modelled as `none`), which is only reached at an index that is neither
first nor last. -/
def sampleBaseAux (stride total : Nat) : Nat → List CommitInfo → Option (List CommitInfo)
  | _, [] => some []
  | idx, c :: rest =>
    if idx = 0 ∨ idx = total - 1 then
      (sampleBaseAux stride total (idx + 1) rest).map (fun l => c :: l)
    else if stride = 0 then none
    else if idx % stride = 0 then
      (sampleBaseAux stride total (idx + 1) rest).map (fun l => c :: l)
    else sampleBaseAux stride total (idx + 1) rest

/-- The truncation loop body `for i in 0..max_commits { if i * step <
sampled.len() { limited.push(sampled[i * step]) } }`: the bounds guard is
exactly `getElem?` returning `some`. -/
def pickEvery (l : List CommitInfo) (m step : Nat) : List CommitInfo :=
  (List.range m).filterMap (fun i => l[i * step]?)

/-- The `max_commits` truncation of `sample_commits`: when the sampled
list exceeds the configured maximum, re-sample by even stride
(`step = len / max`, a Rust division-by-zero panic when the maximum is
`0`, modelled as `none`) and force-append the original last commit when
no kept commit carries its hash. -/
def sampleTruncate : Option Nat → List CommitInfo → Option (List CommitInfo)
  | none, sampled => some sampled
  | some m, sampled =>
    if sampled.length > m then
      if m = 0 then none
      else
        let step := sampled.length / m
        let limited := pickEvery sampled m step
        match sampled.getLast? with
        | some last =>
          if limited.any (fun c => decide (c.hash = last.hash)) then some limited
          else some (limited ++ [last])
        | none => some limited
    else some sampled

/-- The `ChronoGraphEngine::sample_commits`. -/
def sample_commits (stride : Nat) (max_commits : Option Nat)
    (seq : List CommitInfo) : Option (List CommitInfo) :=
  (sampleBaseAux stride seq.length 0 seq).bind (sampleTruncate max_commits)

/-- Keep the elements whose enumeration index satisfies `p`. -/
def filterIdx (p : Nat → Bool) : Nat → List CommitInfo → List CommitInfo
  | _, [] => []
  | i, c :: rest =>
    if p i then c :: filterIdx p (i + 1) rest else filterIdx p (i + 1) rest

/-- The index predicate of the spec's sampling policy: first commit, last
commit, or a 0-based index that is a multiple of the stride. -/
def specSampledIdx (stride total i : Nat) : Bool :=
  decide (i = 0) || decide (i = total - 1) || decide (i % stride = 0)

/-- The sampled list as the spec describes it: exactly the commits at
index 0, index `len - 1`, and indices divisible by the stride. -/
def specSampled (stride : Nat) (seq : List CommitInfo) : List CommitInfo :=
  filterIdx (specSampledIdx stride seq.length) 0 seq

theorem sampleBaseAux_eq_filterIdx (stride total : Nat) (hs : 1 ≤ stride) :
    ∀ (l : List CommitInfo) (i : Nat),
    sampleBaseAux stride total i l = some (filterIdx (specSampledIdx stride total) i l)
  | [], _ => rfl
  | c :: rest, i => by
    rw [sampleBaseAux, filterIdx]
    by_cases h0 : i = 0 ∨ i = total - 1
    · rw [if_pos h0, sampleBaseAux_eq_filterIdx stride total hs rest (i + 1)]
      have hp : specSampledIdx stride total i = true := by
        rcases h0 with h | h <;> simp [specSampledIdx, h]
      rw [if_pos hp]
      rfl
    · rw [if_neg h0, if_neg (by omega : ¬ stride = 0)]
      push_neg at h0
      by_cases hm : i % stride = 0
      · rw [if_pos hm, sampleBaseAux_eq_filterIdx stride total hs rest (i + 1)]
        have hp : specSampledIdx stride total i = true := by
          simp [specSampledIdx, hm]
        rw [if_pos hp]
        rfl
      · rw [if_neg hm, sampleBaseAux_eq_filterIdx stride total hs rest (i + 1)]
        have hp : specSampledIdx stride total i = false := by
          simp [specSampledIdx, h0.1, h0.2, hm]
        rw [if_neg (by simp [hp])]

/-- Ten commits with distinct hashes, for concrete sampling runs. -/
def seq10 : List CommitInfo := (List.range 10).map mkC

/-- Three commits with distinct hashes. -/
def seq3C6 : List CommitInfo := [mkC 0, mkC 1, mkC 2]

/-- C6, counterexample.  With a configured stride of `0` and three or
more commits, the loop evaluates `index % 0`, which panics in Rust: no
list is returned at all, so the claimed characterization fails for
stride `0`. -/
theorem sample_zero_stride_panics :
    seq3C6 ≠ [] ∧ sample_commits 0 none seq3C6 = none := by decide

/-- C6, amended (stride at least 1).  With no max-commit cap, the
sampled list consists of exactly the commits whose 0-based index is 0,
`len - 1`, or a multiple of the stride. -/
theorem sample_no_cap_index_characterization (seq : List CommitInfo) (stride : Nat)
    (_hne : seq ≠ []) (hs : 1 ≤ stride) :
    sample_commits stride none seq = some (specSampled stride seq) := by
  unfold sample_commits specSampled
  rw [sampleBaseAux_eq_filterIdx stride seq.length hs seq 0]
  rfl

theorem sample_no_cap_index_characterization_witness :
    sample_commits 2 none seq10 = some (specSampled 2 seq10) ∧
    specSampled 2 seq10 = [mkC 0, mkC 2, mkC 4, mkC 6, mkC 8, mkC 9] :=
  ⟨sample_no_cap_index_characterization seq10 2 (by decide) (by decide), by decide⟩

/-- One commit. -/
def seq1C5 : List CommitInfo := [mkC 0]

/-- C5, counterexample.  A configured maximum of `0` triggers the
truncation branch (`sampled.len() > 0`) and then `sampled.len() / 0`
panics in Rust: no list containing the first and last commit is
returned. -/
theorem sample_truncation_zero_max_panics :
    sampleBaseAux 1 seq1C5.length 0 seq1C5 = some [mkC 0] ∧
    ([mkC 0] : List CommitInfo).length > 0 ∧
    sample_commits 1 (some 0) seq1C5 = none := by decide

/-- C5, amended (maximum at least 1).  Whenever truncation triggers, the
returned list still contains the first commit of the pre-truncation
sampled sequence (the even stride always keeps index 0) and a commit
carrying the hash of its last commit (kept, or force-appended). -/
theorem sample_truncation_keeps_first_and_last (seq : List CommitInfo)
    (stride m : Nat) (sampled : List CommitInfo)
    (hbase : sampleBaseAux stride seq.length 0 seq = some sampled)
    (hm : 1 ≤ m) (htrig : sampled.length > m) :
    ∃ l, sample_commits stride (some m) seq = some l ∧
      (∀ first, sampled.head? = some first → first ∈ l) ∧
      (∀ last, sampled.getLast? = some last → ∃ c ∈ l, c.hash = last.hash) := by
  unfold sample_commits
  rw [hbase]
  simp only [Option.some_bind]
  rw [sampleTruncate, if_pos htrig, if_neg (by omega : ¬ m = 0)]
  have hnonempty : sampled ≠ [] := by
    intro h
    rw [h] at htrig
    simp at htrig
  obtain ⟨last, hlast⟩ : ∃ last, sampled.getLast? = some last := by
    cases hL : sampled.getLast? with
    | none => exact absurd (List.getLast?_eq_none_iff.mp hL) hnonempty
    | some x => exact ⟨x, rfl⟩
  simp only [hlast]
  have hhead : ∀ first, sampled.head? = some first →
      first ∈ pickEvery sampled m (sampled.length / m) := by
    intro first hf
    have h0 : sampled[0]? = some first := by
      cases sampled with
      | nil => simp at hf
      | cons a t =>
        simp only [List.head?_cons, Option.some.injEq] at hf
        simp [hf]
    refine List.mem_filterMap.mpr ⟨0, List.mem_range.mpr (by omega), ?_⟩
    simpa using h0
  by_cases hany : (pickEvery sampled m (sampled.length / m)).any
      (fun c => decide (c.hash = last.hash))
  · rw [if_pos hany]
    refine ⟨_, rfl, hhead, ?_⟩
    intro last' hlast'
    rw [Option.some_inj] at hlast'
    obtain ⟨c, hc, hch⟩ := List.any_eq_true.mp hany
    exact ⟨c, hc, by rw [of_decide_eq_true hch, hlast']⟩
  · rw [if_neg hany]
    refine ⟨_, rfl, fun f hf => List.mem_append_left _ (hhead f hf), ?_⟩
    intro last' hlast'
    rw [Option.some_inj] at hlast'
    exact ⟨last, List.mem_append_right _ (by simp), by rw [hlast']⟩

theorem sample_truncation_keeps_first_and_last_witness :
    ∃ l, sample_commits 1 (some 3) seq10 = some l ∧
      (∀ first, seq10.head? = some first → first ∈ l) ∧
      (∀ last, seq10.getLast? = some last → ∃ c ∈ l, c.hash = last.hash) :=
  sample_truncation_keeps_first_and_last seq10 1 3 seq10 (by decide) (by decide)
    (by decide)

/-- C10.  When truncation triggers with maximum `m ≥ 1`, the returned
list has at most `m + 1` commits, and the bound is attained: for ten
commits, stride 1 and maximum 3, exactly `3 + 1` commits come back (the
force-appended last commit exceeds the configured maximum by one). -/
theorem sample_max_exceeded_by_one :
    (∀ (seq : List CommitInfo) (stride m : Nat) (sampled : List CommitInfo),
      sampleBaseAux stride seq.length 0 seq = some sampled → 1 ≤ m →
      sampled.length > m →
      ∃ l, sample_commits stride (some m) seq = some l ∧ l.length ≤ m + 1) ∧
    (∃ l, sample_commits 1 (some 3) seq10 = some l ∧ l.length = 3 + 1) := by
  constructor
  · intro seq stride m sampled hbase hm htrig
    unfold sample_commits
    rw [hbase]
    simp only [Option.some_bind]
    rw [sampleTruncate, if_pos htrig, if_neg (by omega : ¬ m = 0)]
    have hlen : (pickEvery sampled m (sampled.length / m)).length ≤ m := by
      calc (pickEvery sampled m (sampled.length / m)).length
          ≤ (List.range m).length := List.length_filterMap_le _ _
        _ = m := List.length_range m
    cases hL : sampled.getLast? with
    | none =>
      simp only [hL]
      exact ⟨_, rfl, hlen.trans (Nat.le_succ m)⟩
    | some last =>
      simp only [hL]
      by_cases hany : (pickEvery sampled m (sampled.length / m)).any
          (fun c => decide (c.hash = last.hash))
      · rw [if_pos hany]
        exact ⟨_, rfl, hlen.trans (Nat.le_succ m)⟩
      · rw [if_neg hany]
        refine ⟨_, rfl, ?_⟩
        rw [List.length_append]
        simpa using hlen
  · exact ⟨[mkC 0, mkC 3, mkC 6, mkC 9], by decide, by decide⟩

theorem sample_max_exceeded_by_one_witness :
    ∃ l, sample_commits 1 (some 4) seq10 = some l ∧ l.length ≤ 4 + 1 :=
  sample_max_exceeded_by_one.1 seq10 1 4 seq10 (by decide) (by decide) (by decide)

/-! ### The analysis engine: per-commit analysis (analyze_commit) -/

/-- The `chronograph_engine::CommitSnapshot`. -/
structure CommitSnapshot where
  commit_info : CommitInfo
  analysis_result : AnalysisResult
  project_path : List Nat
deriving DecidableEq

/-- The environment a single `analyze_commit` call runs in: the outcome
of each effectful collaborator (checkout, registry lookup, path check,
analyzability check, cache read, analyzer run, cache write), each
modelled as the value the call would return. -/
structure EngineEnv where
  checkout : Except (List Nat) Unit
  analyzer_found : Bool
  subfolder : Option (List Nat)
  subfolder_exists : Bool
  can_analyze : Bool
  has_cache : Bool
  cache_get_outcome : Except (List Nat) (Option AnalysisResult)
  analyze_outcome : Except (List Nat) AnalysisResult
  cache_put_outcome : Except (List Nat) Unit
  base_path : List Nat

/-- The `ChronoGraphEngine::analyze_commit`: checkout, resolve the analyzer
and the analysis path, verify analyzability, consult the cache (a hit
returns the cached snapshot), otherwise run the analyzer; the result is
written back to the cache best-effort — a failed `put` is only logged
and the fresh snapshot is still returned. -/
def analyze_commit (env : EngineEnv) (commit : CommitInfo) :
    Except (List Nat) CommitSnapshot :=
  match env.checkout with
  | .error e => .error e
  | .ok _ =>
    if env.analyzer_found = false then .error [1]
    else
      match (match env.subfolder with
             | some sub =>
               if env.subfolder_exists then Except.ok (env.base_path ++ sub)
               else Except.error [2]
             | none => Except.ok env.base_path : Except (List Nat) (List Nat)) with
      | .error e => .error e
      | .ok analysis_path =>
        if env.can_analyze = false then .error [3]
        else
          match (if env.has_cache then env.cache_get_outcome else .ok none) with
          | .ok (some cached) => .ok ⟨commit, cached, analysis_path⟩
          | _ =>
            match env.analyze_outcome with
            | .error e => .error e
            | .ok result =>
              match (if env.has_cache then env.cache_put_outcome else .ok ()) with
              | .ok _ => .ok ⟨commit, result, analysis_path⟩
              | .error _ => .ok ⟨commit, result, analysis_path⟩

/-- C9.  When checkout, lookup, path resolution and the analysis itself
succeed and the cache read was a miss, `analyze_commit` returns the
snapshot built from the fresh analysis result whatever the cache write
does — in particular under any failing `put`. -/
theorem analyze_commit_put_failure_not_fatal (env : EngineEnv)
    (commit : CommitInfo) (r : AnalysisResult)
    (hco : env.checkout = .ok ())
    (haf : env.analyzer_found = true)
    (hsub : env.subfolder = none ∨ env.subfolder_exists = true)
    (hca : env.can_analyze = true)
    (hcache : env.has_cache = true)
    (hmiss : env.cache_get_outcome = .ok none)
    (hres : env.analyze_outcome = .ok r) :
    ∀ msg, analyze_commit { env with cache_put_outcome := .error msg } commit =
      .ok ⟨commit, r,
        (match env.subfolder with
         | some sub => env.base_path ++ sub
         | none => env.base_path)⟩ := by
  intro msg
  unfold analyze_commit
  rcases hsub with h | h
  · simp [hco, haf, h, hca, hcache, hmiss, hres]
  · cases hs : env.subfolder with
    | none => simp [hco, haf, hs, hca, hcache, hmiss, hres]
    | some sub => simp [hco, haf, hs, h, hca, hcache, hmiss, hres]

/-- A run environment whose every step succeeds, with an empty cache. -/
def wEnv : EngineEnv :=
  ⟨.ok (), true, none, true, true, true, .ok none, .ok wRes, .ok (), [112]⟩

/-- A commit for the engine witness. -/
def wCommit : CommitInfo := mkC 7

theorem analyze_commit_put_failure_not_fatal_witness :
    analyze_commit { wEnv with cache_put_outcome := .error [101] } wCommit =
      .ok ⟨wCommit, wRes, [112]⟩ := by
  have h := analyze_commit_put_failure_not_fatal wEnv wCommit wRes rfl rfl
    (Or.inl rfl) rfl rfl rfl rfl [101]
  simpa [wEnv] using h

/-! ### The repository navigator (git_navigator.rs): the filtered walk -/

/-- One commit of the first-parent chain, paired with the outcome of the
inclusion condition `commit_touches_subfolder` (a root commit whose tree
contains the subfolder, or a commit whose first-parent diff touches a
path equal to or nested under it; `false` also on an inspection error,
as the source skips the commit then). -/
structure WalkCommit where
  info : CommitInfo
  touches : Bool
deriving DecidableEq

/-- The walk loop of `build_merge_sequence_with_subfolder` over the
first-parent chain (tip first): stop on a revisited hash; count the
commit; on a subfolder match push it and — `if filtered_commits >= 1` —
break out of the walk; otherwise stop once more than 100 commits were
inspected; else step to the first parent. -/
def buildSeqAux : List WalkCommit → List (List Nat) → Nat → List CommitInfo →
    List CommitInfo
  | [], _, _, seq => seq
  | c :: rest, visited, total, seq =>
    if c.info.hash ∈ visited then seq
    else
      if c.touches then seq ++ [c.info]
      else if total + 1 > 100 then seq
      else buildSeqAux rest (c.info.hash :: visited) (total + 1) seq

/-- The `build_merge_sequence_with_subfolder` with a subfolder filter set:
walk from the tip, then reverse into oldest-first order. -/
def build_merge_sequence_with_subfolder (chain : List WalkCommit) :
    List CommitInfo :=
  (buildSeqAux chain [] 0 []).reverse

/-- The sequence the spec describes for a subfolder-filtered rebuild:
all commits satisfying the inclusion condition among those inspected
before the hard cap, oldest-first. -/
def mergeSequencePerSpec (chain : List WalkCommit) : List CommitInfo :=
  (((chain.take 101).filter (fun c => c.touches)).map (fun c => c.info)).reverse

/-- A two-commit first-parent chain (tip first), both commits touching
the subfolder. -/
def chainC1 : List WalkCommit := [⟨mkC 1, true⟩, ⟨mkC 2, true⟩]

/-- C1.  On a two-commit chain whose commits both satisfy the inclusion
condition, the source returns only the tip-most matching commit: the
loop breaks as soon as `filtered_commits >= 1` (its own output says
"limiting to 1 commit for testing"), so the built sequence is `[c1]`
where the claimed behaviour — echoed by the function's documentation and
its closing progress message — is the oldest-first list of all matching
inspected commits `[c2, c1]`. -/
theorem mergeSequence_stops_after_first_match :
    build_merge_sequence_with_subfolder chainC1 = [mkC 1] ∧
    mergeSequencePerSpec chainC1 = [mkC 2, mkC 1] ∧
    build_merge_sequence_with_subfolder chainC1 ≠ mergeSequencePerSpec chainC1 := by
  decide

end ChronoGraph
